import Mathlib

/-!
Verification of the RoleSync bot core against its specification.

Strings are embedded as `List Char`; Python `str.replace`, `str.strip`, the
anchored tag-stripping regex of `utils.format_nickname`, and slicing `[:32]`
are given as executable Lean functions.  Database tables are embedded as
lists of rows; the SQL of each database-interface function is translated row
by row.  Members carry the fields the formatters read.
-/

namespace RoleSync

/-- Whitespace as matched by the regex class and by Python `str.strip`
(space, tab, newline, carriage return, form feed, vertical tab). -/
def wsChar (c : Char) : Bool :=
  c == ' ' || c == '\t' || c == '\n' || c == '\r' || c == '\x0c' || c == '\x0b'

/-- `isPre pat s` is true when `pat` is an initial segment of `s`. -/
def isPre : List Char → List Char → Bool
  | [], _ => true
  | _ :: _, [] => false
  | a :: as, b :: bs => a == b && isPre as bs

/-- Fuel-driven worker for `replaceAll`; fuel is the length of the subject
string, which bounds the number of steps. -/
def repGo : Nat → List Char → List Char → List Char → List Char
  | 0, s, _, _ => s
  | _ + 1, [], _, _ => []
  | fuel + 1, c :: rest, pat, rep =>
    if !pat.isEmpty && isPre pat (c :: rest) then
      rep ++ repGo fuel ((c :: rest).drop pat.length) pat rep
    else
      c :: repGo fuel rest pat rep

/-- Python `s.replace(pat, rep)` for a non-empty pattern: replace every
non-overlapping occurrence, scanning left to right. -/
def replaceAll (s pat rep : List Char) : List Char := repGo s.length s pat rep

/-- Python `s.strip()`: remove leading and trailing whitespace. -/
def pyStrip (s : List Char) : List Char :=
  ((s.dropWhile wsChar).reverse.dropWhile wsChar).reverse

/-- The single anchored removal performed by
`re.sub(r'^\[[^\]]+\]\s*', '', s)` in `utils.format_nickname`: if the string
starts with `[`, has at least one non-`]` character, then a `]`, drop through
the `]` and the whitespace that follows; otherwise leave the string alone.
The `^` anchor means at most one removal ever happens. -/
def dropTag : List Char → List Char
  | '[' :: rest =>
    match rest.takeWhile (fun c => !(c == ']')), rest.dropWhile (fun c => !(c == ']')) with
    | _ :: _, _ :: tail => tail.dropWhile wsChar
    | _, _ => '[' :: rest
  | s => s

/-- The member fields read by the formatters: `member.name` (immutable
username), `member.display_name`, and `member.nick` (nullable). -/
structure Member where
  name : List Char
  displayName : List Char
  nick : Option (List Char)
deriving DecidableEq

def usernameToken : List Char := "{username}".toList

def displayNameToken : List Char := "{display_name}".toList

/-- `utils.format_nickname`: strip one leading bracket tag from the display
name (then Python `.strip()`), substitute `\x7busername\x7d` and
`\x7bdisplay_name\x7d`, truncate to 32 characters. -/
def format_nickname (format_string : List Char) (member : Member) : List Char :=
  let stripped_name := pyStrip (dropTag member.displayName)
  let formatted := replaceAll format_string usernameToken member.name
  let formatted := replaceAll formatted displayNameToken stripped_name
  formatted.take 32

/-- `NicknameUpdater.format_nickname` (cogs/nickname_updater.py): substitutes
the raw display name with no tag stripping, truncates to 32 characters. -/
def updaterFormatNickname (format_string : List Char) (member : Member) : List Char :=
  let formatted := replaceAll format_string usernameToken member.name
  let formatted := replaceAll formatted displayNameToken member.displayName
  formatted.take 32

/-! ### Database layer (database.py)

Each table is embedded as a list of rows for one guild (or with an explicit
guild column where a claim speaks about the `(server, …)` row shape).  SQL
queries are translated into list operations on those rows. -/

/-- A row of `role_exclusivity_groups` for one guild: (group_name, role_id).
PK (guild_id, role_id) means a role appears in at most one row. -/
abbrev ExclusivityTable := List (String × Nat)

/-- `database.get_conflicting_role`.  The sub-select finds the group of
`new_role_id`; the outer select fetches every role of that group; the Python
body intersects with the user's role ids and returns an arbitrary element
(`set.pop()`), looked back up among the user's roles.  The arbitrary pop is
embedded deterministically as the first matching id in the order of
`user_roles`; the claims settled here either hold for any choice or are
refuted on a one-element intersection, where the choice is forced. -/
def get_conflicting_role (table : ExclusivityTable) (user_roles : List Nat)
    (new_role_id : Nat) : Option Nat :=
  match (table.find? (fun row => row.2 == new_role_id)).map (fun row => row.1) with
  | none => none
  | some g =>
    let exclusive_role_ids := (table.filter (fun row => row.1 == g)).map (fun row => row.2)
    match user_roles.filter (fun rid => exclusive_role_ids.contains rid) with
    | [] => none
    | conflicting_id :: _ => some conflicting_id

/-- A row of `delegated_role_permissions`:
(guild_id, manager_role_id, managed_role_id), PK all three. -/
abbrev DelegationTable := List (Nat × Nat × Nat)

/-- `database.add_delegated_permission`: `INSERT … ON CONFLICT DO NOTHING`
against the three-column primary key. -/
def add_delegated_permission (store : DelegationTable)
    (guild_id manager_role_id managed_role_id : Nat) : DelegationTable :=
  if (guild_id, manager_role_id, managed_role_id) ∈ store then store
  else store ++ [(guild_id, manager_role_id, managed_role_id)]

/-- `database.get_manageable_roles_for_user`: empty input short-circuits;
otherwise `SELECT DISTINCT managed_role_id … WHERE guild_id = $1 AND
manager_role_id IN (…)`. -/
def get_manageable_roles_for_user (store : DelegationTable) (guild_id : Nat)
    (user_role_ids : List Nat) : List Nat :=
  if user_role_ids.isEmpty then []
  else
    ((store.filter (fun row => row.1 == guild_id && user_role_ids.contains row.2.1)).map
      (fun row => row.2.2)).dedup

/-- The names of the functions actually defined in `src/database.py`
(its complete list of module-level `def`/`async def`). -/
def databaseModuleFunctions : List String :=
  ["init_db_pool", "set_rule", "remove_rule", "get_rule", "get_all_rules",
   "save_nickname_history", "get_nickname_history", "delete_nickname_history",
   "add_delegated_permission", "remove_delegated_permission",
   "get_all_delegated_permissions", "get_manageable_roles_for_user",
   "add_role_to_exclusive_group", "remove_role_from_exclusive_group",
   "get_all_exclusive_groups", "get_conflicting_role"]

/-- The `db.*` attributes referenced by the command handlers in
`src/cogs/delegation.py` and `src/cogs/config.py`. -/
def cogDbOperations : List String :=
  ["get_manageable_roles_for_user", "get_role_dependencies",
   "get_conflicting_role", "get_full_hierarchy_for_role",
   "add_delegated_permission", "remove_delegated_permission",
   "get_all_delegated_permissions", "add_role_to_exclusive_group",
   "remove_role_from_exclusive_group", "get_all_exclusive_groups",
   "add_dependency", "remove_dependency", "get_all_dependencies",
   "set_rule", "remove_rule", "get_all_rules", "get_rule",
   "save_nickname_history", "clean_stale_role_entries"]

/-! ### Dependency graph

`delegation.py` calls `db.get_role_dependencies` and
`db.get_full_hierarchy_for_role`, but `src/database.py` defines neither, so
the traversal itself is code of this repository missing from `src/`.  It is
modelled from the spec below. -/

/-- Guild-scoped dependency edges `(role_id, required_role_id)`:
"role requires required_role". -/
abbrev DependencyEdges := List (Nat × Nat)

/-- The direct requirements of a role: the targets of its outgoing
"requires" edges. -/
def succs (edges : DependencyEdges) (n : Nat) : List Nat :=
  (edges.filter (fun e => e.1 == n)).map (fun e => e.2)

/-- All endpoints occurring in the edge list. -/
def nodesOf (edges : DependencyEdges) : List Nat :=
  edges.map (fun e => e.1) ++ edges.map (fun e => e.2)

/-- Number of nodes of the graph not yet visited; decreases when the
traversal marks a node. -/
def unvisitedCount (edges : DependencyEdges) (visited : List Nat) : Nat :=
  ((nodesOf edges).filter (fun x => !(visited.contains x))).length

lemma succs_eq_nil_of_not_source {edges : DependencyEdges} {n : Nat}
    (h : n ∉ edges.map (fun e => e.1)) : succs edges n = [] := by
  unfold succs
  rw [List.filter_eq_nil_iff.mpr, List.map_nil]
  intro e he hbeq
  exact h (List.mem_map.mpr ⟨e, he, by simpa using hbeq⟩)

lemma unvisitedCount_cons_le (edges : DependencyEdges) (visited : List Nat) (n : Nat) :
    unvisitedCount edges (n :: visited) ≤ unvisitedCount edges visited := by
  refine List.Sublist.length_le (List.monotone_filter_right _ ?_)
  intro a ha
  simp only [List.contains_cons, Bool.not_eq_true', Bool.or_eq_false_iff] at *
  exact ha.2

lemma length_filter_not_contains_lt {n : Nat} (l : List Nat) (visited : List Nat)
    (hmem : n ∈ l) (hnv : n ∉ visited) :
    (l.filter (fun x => !((n :: visited).contains x))).length <
      (l.filter (fun x => !(visited.contains x))).length := by
  induction l with
  | nil => simp at hmem
  | cons a l ih =>
    by_cases han : a = n
    · subst han
      have hP : (!((a :: visited).contains a)) = false := by simp
      have hQ : (!(visited.contains a)) = true := by simpa using hnv
      rw [List.filter_cons, List.filter_cons, if_neg (by simp), if_pos (by simpa using hnv)]
      refine Nat.lt_succ_of_le (List.Sublist.length_le
        (List.monotone_filter_right _ (fun x hx => ?_)))
      simp only [List.contains_cons, Bool.not_eq_true', Bool.or_eq_false_iff] at hx ⊢
      exact hx.2
    · have hmem' : n ∈ l := by
        rcases List.mem_cons.mp hmem with h | h
        · exact absurd h.symm han
        · exact h
      have hPQ : (!((n :: visited).contains a)) = (!(visited.contains a)) := by
        simp [List.contains_cons, han]
      rw [List.filter_cons, List.filter_cons, hPQ]
      by_cases hQa : a ∈ visited
      · rw [if_neg (by simpa using hQa), if_neg (by simpa using hQa)]
        exact ih hmem'
      · rw [if_pos (by simpa using hQa), if_pos (by simpa using hQa)]
        simpa using Nat.succ_lt_succ (ih hmem')

lemma unvisitedCount_cons_lt {edges : DependencyEdges} {visited : List Nat} {n : Nat}
    (hmem : n ∈ nodesOf edges) (hnv : n ∉ visited) :
    unvisitedCount edges (n :: visited) < unvisitedCount edges visited :=
  length_filter_not_contains_lt (nodesOf edges) visited hmem hnv

/-- Modelled from the spec: the cycle-safe visited-set traversal behind
`resolveDependencies` / `db.get_role_dependencies` (absent from
`src/database.py`).  Pops a work-stack entry; if unseen, marks it visited and
pushes its direct requirements; returns the visited set when the stack is
exhausted. -/
def dfsVisit (edges : DependencyEdges) : List Nat → List Nat → List Nat
  | visited, [] => visited
  | visited, n :: stack =>
    if n ∈ visited then dfsVisit edges visited stack
    else dfsVisit edges (n :: visited) (succs edges n ++ stack)
termination_by visited stack =>
  unvisitedCount edges visited * (edges.length + 1) + stack.length
decreasing_by
  · simp only [List.length_cons]
    omega
  · rename_i hnv
    by_cases hmem : n ∈ nodesOf edges
    · have h1 := unvisitedCount_cons_lt hmem hnv
      have h2 : (succs edges n).length ≤ edges.length := by
        unfold succs
        simpa using List.length_filter_le _ _
      have h3 : (succs edges n ++ stack).length ≤ edges.length + stack.length := by
        simp only [List.length_append]
        omega
      calc unvisitedCount edges (n :: visited) * (edges.length + 1) +
            (succs edges n ++ stack).length
          ≤ unvisitedCount edges (n :: visited) * (edges.length + 1) +
            (edges.length + stack.length) := by omega
        _ < unvisitedCount edges visited * (edges.length + 1) + (n :: stack).length := by
            simp only [List.length_cons]
            nlinarith
    · have hsrc : n ∉ edges.map (fun e => e.1) := by
        intro h
        exact hmem (by unfold nodesOf; exact List.mem_append_left _ h)
      have h0 : succs edges n = [] := succs_eq_nil_of_not_source hsrc
      have hle := unvisitedCount_cons_le edges visited n
      simp only [h0, List.nil_append, List.length_cons]
      nlinarith

/-- Modelled from the spec: `resolveDependencies(server, role)` — the
transitive closure of "requires" edges reachable from `role`, excluding
`role` itself, computed with the visited-set traversal. -/
def get_role_dependencies (edges : DependencyEdges) (role : Nat) : List Nat :=
  (dfsVisit edges [role] (succs edges role)).filter (fun x => !(x == role))

/-- Modelled from the spec: `resolveFullHierarchy(server, role)` — the role
plus its full transitive dependency closure. -/
def get_full_hierarchy_for_role (edges : DependencyEdges) (role : Nat) : List Nat :=
  role :: get_role_dependencies edges role

/-- `Reaches edges a b`: `b` is reachable from `a` following zero or more
"requires" edges. -/
inductive Reaches (edges : DependencyEdges) : Nat → Nat → Prop
  | refl (n : Nat) : Reaches edges n n
  | step {a b c : Nat} : Reaches edges a b → c ∈ succs edges b → Reaches edges a c

/-! ### Removal-triggered revert (cogs/nickname_updater.py, removed-roles loop)

The external effects are embedded as data: `history`/`rule` are the database
reads, `editFails` says whether the `after.edit(...)` call raises
`discord.Forbidden` (or any exception).  The Python `try` block covers the
rule lookup, the optional edit, and the `delete_nickname_history` call, so a
raising edit jumps to `except` before the delete runs. -/

/-- What the removed-role handler did: whether the nickname revert was
applied and whether the history-ledger row was deleted. -/
structure RemovalOutcome where
  revertApplied : Bool
  historyDeleted : Bool
deriving DecidableEq

/-- The body of `on_member_update` for one removed role, from
cogs/nickname_updater.py lines 44-67. -/
def on_removed_role (history : Option (Option (List Char))) (rule : Option (List Char))
    (member : Member) (editFails : Bool) : RemovalOutcome :=
  match history with
  | none => ⟨false, false⟩
  | some _previous_nickname =>
    let revertWanted : Bool :=
      match rule with
      | some fmt => member.nick == some (updaterFormatNickname fmt member)
      | none => true
    if revertWanted && editFails then ⟨false, false⟩
    else ⟨revertWanted, true⟩

/-! ### The grant-role engine (cogs/delegation.py, `grant_role`)

`guild.get_role(rid)` succeeds exactly for `rid ∈ existingRoles`; `addFails`
says whether the final `user.add_roles(...)` call raises.  The conflict
prompt performs no mutation itself (the mutation belongs to the
confirmation view), so the engine step ends there. -/

inductive GrantOutcome where
  | permissionDenied
  | roleNotFound
  | alreadySatisfied
  | conflictPrompt (toAdd toRemove : List Nat)
  | granted (added : List Nat)
  | actionFailed
deriving DecidableEq

/-- The persistent stores read by the engine (never written by it). -/
structure GuildStores where
  delegated : DelegationTable
  dependencies : DependencyEdges
  exclusivity : ExclusivityTable
deriving DecidableEq

structure GrantResult where
  outcome : GrantOutcome
  memberRoles : List Nat
  stores : GuildStores
deriving DecidableEq

/-- `Delegation.grant_role` (cogs/delegation.py lines 90-156) up to and
including the action/prompt decision.  The dependency lookups
`db.get_role_dependencies` and `db.get_full_hierarchy_for_role` are the
spec-modelled functions above since `src/database.py` does not define
them. -/
def grant_role (stores : GuildStores) (guild_id : Nat) (existingRoles : List Nat)
    (actorIsAdmin : Bool) (actorRoles : List Nat) (role_id : Nat)
    (memberRoles : List Nat) (addFails : Bool) : GrantResult :=
  let targetExists := existingRoles.contains role_id
  if !actorIsAdmin &&
      !(targetExists &&
        (get_manageable_roles_for_user stores.delegated guild_id actorRoles).contains role_id) then
    ⟨.permissionDenied, memberRoles, stores⟩
  else if actorIsAdmin && !targetExists then
    ⟨.roleNotFound, memberRoles, stores⟩
  else
    let dependency_ids := get_role_dependencies stores.dependencies role_id
    let all_ids_to_add := dependency_ids ++ [role_id]
    let final_add_ids := all_ids_to_add.filter (fun rid => !(memberRoles.contains rid))
    let roles_to_add := final_add_ids.filter (fun rid => existingRoles.contains rid)
    if roles_to_add.isEmpty then
      ⟨.alreadySatisfied, memberRoles, stores⟩
    else
      match roles_to_add.findSome?
          (fun r => get_conflicting_role stores.exclusivity memberRoles r) with
      | some conflicting =>
        let hierarchy := get_full_hierarchy_for_role stores.dependencies conflicting
        let roles_to_remove := memberRoles.filter (fun r => hierarchy.contains r)
        ⟨.conflictPrompt roles_to_add roles_to_remove, memberRoles, stores⟩
      | none =>
        if addFails then ⟨.actionFailed, memberRoles, stores⟩
        else ⟨.granted roles_to_add, memberRoles ++ roles_to_add, stores⟩

/-! ### Small helpers used only in theorem statements -/

/-- The role ids in the candidate's exclusivity group (the rows fetched by
the SQL of `get_conflicting_role`); empty when the candidate has no group. -/
def candidateGroupRoles (table : ExclusivityTable) (new_role_id : Nat) : List Nat :=
  match (table.find? (fun row => row.2 == new_role_id)).map (fun row => row.1) with
  | none => []
  | some g => (table.filter (fun row => row.1 == g)).map (fun row => row.2)

/-- True when the string does not begin with a whitespace character. -/
def noLeadingWs : List Char → Bool
  | [] => true
  | c :: _ => !wsChar c

/-- True when the string does not end with a whitespace character. -/
def noTrailingWs (l : List Char) : Bool := noLeadingWs l.reverse

lemma dfsVisit_mono (edges : DependencyEdges) (visited stack : List Nat) :
    ∀ x ∈ visited, x ∈ dfsVisit edges visited stack := by
  induction visited, stack using dfsVisit.induct edges with
  | case1 visited =>
    intro x hx
    simpa [dfsVisit] using hx
  | case2 visited n stack hmem ih =>
    intro x hx
    simp only [dfsVisit]
    rw [if_pos hmem]
    exact ih x hx
  | case3 visited n stack hmem ih =>
    intro x hx
    simp only [dfsVisit]
    rw [if_neg hmem]
    exact ih x (List.mem_cons_of_mem n hx)

lemma dfsVisit_stack_subset (edges : DependencyEdges) (visited stack : List Nat) :
    ∀ x ∈ stack, x ∈ dfsVisit edges visited stack := by
  induction visited, stack using dfsVisit.induct edges with
  | case1 visited =>
    intro x hx
    simp at hx
  | case2 visited n stack hmem ih =>
    intro x hx
    simp only [dfsVisit]
    rw [if_pos hmem]
    rcases List.mem_cons.mp hx with rfl | hx'
    · exact dfsVisit_mono edges visited stack x hmem
    · exact ih x hx'
  | case3 visited n stack hmem ih =>
    intro x hx
    simp only [dfsVisit]
    rw [if_neg hmem]
    rcases List.mem_cons.mp hx with rfl | hx'
    · exact dfsVisit_mono edges (x :: visited) _ x (List.mem_cons_self x visited)
    · exact ih x (List.mem_append_right _ hx')

lemma dfsVisit_sound (edges : DependencyEdges) (P : Nat → Prop)
    (hclosed : ∀ a, P a → ∀ s ∈ succs edges a, P s) (visited stack : List Nat) :
    (∀ v ∈ visited, P v) → (∀ s ∈ stack, P s) →
      ∀ v ∈ dfsVisit edges visited stack, P v := by
  induction visited, stack using dfsVisit.induct edges with
  | case1 visited =>
    intro hv _ x hx
    simp only [dfsVisit] at hx
    exact hv x hx
  | case2 visited n stack hmem ih =>
    intro hv hs x hx
    simp only [dfsVisit] at hx
    rw [if_pos hmem] at hx
    exact ih hv (fun s h => hs s (List.mem_cons_of_mem n h)) x hx
  | case3 visited n stack hmem ih =>
    intro hv hs x hx
    simp only [dfsVisit] at hx
    rw [if_neg hmem] at hx
    have hPn : P n := hs n (List.mem_cons_self n stack)
    refine ih (fun v h => ?_) (fun s h => ?_) x hx
    · rcases List.mem_cons.mp h with rfl | h'
      · exact hPn
      · exact hv v h'
    · rcases List.mem_append.mp h with h' | h'
      · exact hclosed n hPn s h'
      · exact hs s (List.mem_cons_of_mem n h')

lemma dfsVisit_closed (edges : DependencyEdges) (visited stack : List Nat) :
    (∀ v ∈ visited, ∀ s ∈ succs edges v, s ∈ visited ∨ s ∈ stack) →
      ∀ v ∈ dfsVisit edges visited stack, ∀ s ∈ succs edges v,
        s ∈ dfsVisit edges visited stack := by
  induction visited, stack using dfsVisit.induct edges with
  | case1 visited =>
    intro hinv v hv s hs
    simp only [dfsVisit] at hv ⊢
    rcases hinv v hv s hs with h | h
    · exact h
    · simp at h
  | case2 visited n stack hmem ih =>
    intro hinv v hv s hs
    simp only [dfsVisit] at hv ⊢
    rw [if_pos hmem] at hv ⊢
    refine ih (fun w hw t ht => ?_) v hv s hs
    rcases hinv w hw t ht with h | h
    · exact Or.inl h
    · rcases List.mem_cons.mp h with rfl | h'
      · exact Or.inl hmem
      · exact Or.inr h'
  | case3 visited n stack hmem ih =>
    intro hinv v hv s hs
    simp only [dfsVisit] at hv ⊢
    rw [if_neg hmem] at hv ⊢
    refine ih (fun w hw t ht => ?_) v hv s hs
    rcases List.mem_cons.mp hw with rfl | hw'
    · exact Or.inr (List.mem_append_left _ ht)
    · rcases hinv w hw' t ht with h | h
      · exact Or.inl (List.mem_cons_of_mem n h)
      · rcases List.mem_cons.mp h with rfl | h'
        · exact Or.inl (List.mem_cons_self t visited)
        · exact Or.inr (List.mem_append_right _ h')

/-- The traversal behind `get_role_dependencies` computes exactly the roles
reachable from `role`, together with `role` itself. -/
lemma mem_dfsVisit_iff_reaches (edges : DependencyEdges) (role x : Nat) :
    x ∈ dfsVisit edges [role] (succs edges role) ↔ Reaches edges role x := by
  constructor
  · intro hx
    refine dfsVisit_sound edges (Reaches edges role)
      (fun a ha s hs => Reaches.step ha hs) [role] (succs edges role) ?_ ?_ x hx
    · intro v hv
      rcases List.mem_cons.mp hv with rfl | h
      · exact Reaches.refl v
      · simp at h
    · intro s hs
      exact Reaches.step (Reaches.refl role) hs
  · intro hx
    induction hx with
    | refl => exact dfsVisit_mono edges [role] _ role (List.mem_cons_self role [])
    | step hab hbc ih =>
      refine dfsVisit_closed edges [role] (succs edges role) ?_ _ ih _ hbc
      intro v hv s hs
      rcases List.mem_cons.mp hv with rfl | h
      · exact Or.inr hs
      · simp at h

/-! ### String lemmas for the formatter -/

lemma takeWhile_all_append (p : Char → Bool) (l : List Char) (y : Char) (ys : List Char)
    (h : ∀ c ∈ l, p c = true) (hy : p y = false) :
    (l ++ y :: ys).takeWhile p = l := by
  induction l with
  | nil => simp [List.takeWhile_cons, hy]
  | cons a l ih =>
    have ha := h a (List.mem_cons_self a l)
    simp [List.takeWhile_cons, ha, ih (fun c hc => h c (List.mem_cons_of_mem a hc))]

lemma dropWhile_all_append (p : Char → Bool) (l : List Char) (y : Char) (ys : List Char)
    (h : ∀ c ∈ l, p c = true) (hy : p y = false) :
    (l ++ y :: ys).dropWhile p = y :: ys := by
  induction l with
  | nil => simp [List.dropWhile_cons, hy]
  | cons a l ih =>
    have ha := h a (List.mem_cons_self a l)
    simp [List.dropWhile_cons, ha, ih (fun c hc => h c (List.mem_cons_of_mem a hc))]

lemma dropWhile_ws_eq_self {l : List Char} (h : noLeadingWs l = true) :
    l.dropWhile wsChar = l := by
  cases l with
  | nil => rfl
  | cons c l =>
    simp only [noLeadingWs, Bool.not_eq_true'] at h
    simp [List.dropWhile_cons, h]

lemma dropWhile_ws_append {ws rest : List Char} (hws : ws.all wsChar = true)
    (hrest : noLeadingWs rest = true) :
    (ws ++ rest).dropWhile wsChar = rest := by
  induction ws with
  | nil => simpa using dropWhile_ws_eq_self hrest
  | cons a ws ih =>
    simp only [List.all_cons, Bool.and_eq_true] at hws
    simp [List.dropWhile_cons, hws.1, ih hws.2]

lemma pyStrip_eq_self {l : List Char} (h1 : noLeadingWs l = true)
    (h2 : noTrailingWs l = true) : pyStrip l = l := by
  unfold pyStrip
  rw [dropWhile_ws_eq_self h1, dropWhile_ws_eq_self h2, List.reverse_reverse]

lemma dropTag_tagged (tag ws rest : List Char) (htag : tag ≠ [])
    (hbr : tag.all (fun c => !(c == ']')) = true) :
    dropTag ('[' :: (tag ++ ']' :: (ws ++ rest))) = (ws ++ rest).dropWhile wsChar := by
  have hall : ∀ c ∈ tag, (!(c == ']')) = true := by
    intro c hc
    exact List.all_eq_true.mp hbr c hc
  have ht : (tag ++ ']' :: (ws ++ rest)).takeWhile (fun c => !(c == ']')) = tag :=
    takeWhile_all_append _ _ _ _ hall (by simp)
  have hd : (tag ++ ']' :: (ws ++ rest)).dropWhile (fun c => !(c == ']')) =
      ']' :: (ws ++ rest) :=
    dropWhile_all_append _ _ _ _ hall (by simp)
  cases tag with
  | nil => exact absurd rfl htag
  | cons a tag' =>
    simp only [dropTag, ht, hd]

/-! ### Claim theorems -/

/-- C8.  For every format string and every member, the string returned by
`utils.format_nickname` has length at most 32 characters. -/
theorem format_nickname_length_le_32 (f : List Char) (m : Member) :
    (format_nickname f m).length ≤ 32 := by
  simp only [format_nickname]
  rw [List.length_take]
  exact min_le_left 32 _

/-- C7.  For a member whose display name is `[TAG]` followed by whitespace
and `Rest` (with `Rest` free of surrounding whitespace), `format_nickname`
substitutes exactly `Rest` for the display-name placeholder: the one leading
bracket tag and the whitespace after it are removed, and no further tag at
the start of `Rest` is stripped, since `Rest` is substituted verbatim. -/
theorem format_nickname_strips_single_tag (f name tag ws rest : List Char)
    (nick : Option (List Char)) (htag : tag ≠ [])
    (hbr : tag.all (fun c => !(c == ']')) = true)
    (hws : ws.all wsChar = true)
    (h1 : noLeadingWs rest = true) (h2 : noTrailingWs rest = true) :
    format_nickname f ⟨name, '[' :: (tag ++ ']' :: (ws ++ rest)), nick⟩ =
      (replaceAll (replaceAll f usernameToken name) displayNameToken rest).take 32 := by
  simp only [format_nickname]
  rw [dropTag_tagged tag ws rest htag hbr, dropWhile_ws_append hws h1,
    pyStrip_eq_self h1 h2]

/-- Witness for C7 at a concrete tagged display name. -/
theorem format_nickname_strips_single_tag_witness :
    format_nickname "{display_name}".toList
        ⟨"bob".toList, '[' :: ("X".toList ++ ']' :: (" ".toList ++ "Rest".toList)), none⟩ =
      (replaceAll (replaceAll "{display_name}".toList usernameToken "bob".toList)
        displayNameToken "Rest".toList).take 32 :=
  format_nickname_strips_single_tag _ _ _ _ _ _ (by decide) (by decide) (by decide)
    (by decide) (by decide)

/-- C6 counterexample.  On a member whose display name begins with a bracket
tag, the live listener's formatter (`NicknameUpdater.format_nickname`) and
the run-rule formatter (`utils.format_nickname`) disagree: the former keeps
the tag, the latter strips it. -/
theorem updater_format_differs_on_tagged_name :
    updaterFormatNickname "{display_name}".toList ⟨"bob".toList, "[X] Bob".toList, none⟩ ≠
      format_nickname "{display_name}".toList ⟨"bob".toList, "[X] Bob".toList, none⟩ := by
  decide

/-- C6 amended.  The two formatters agree exactly on members whose display
name is untouched by the tag-stripping-plus-strip step; in particular they
differ on display names beginning with a bracket tag. -/
theorem updater_format_agrees_when_strip_fixes (f : List Char) (m : Member)
    (h : pyStrip (dropTag m.displayName) = m.displayName) :
    updaterFormatNickname f m = format_nickname f m := by
  simp only [updaterFormatNickname, format_nickname, h]

/-- Witness for the amended C6 on an untagged display name. -/
theorem updater_format_agrees_when_strip_fixes_witness :
    updaterFormatNickname "{display_name}".toList ⟨"bob".toList, "Bob".toList, none⟩ =
      format_nickname "{display_name}".toList ⟨"bob".toList, "Bob".toList, none⟩ :=
  updater_format_agrees_when_strip_fixes _ _ (by decide)

/-- C1 counterexample.  When the user already holds the candidate role and
the candidate is registered in an exclusivity group, `get_conflicting_role`
returns the candidate role itself: the code never excludes the candidate
from the intersection.  The claim demands `none` here (the intersection
contains only the candidate). -/
theorem get_conflicting_role_returns_candidate :
    get_conflicting_role [("duty", 1)] [1] 1 = some 1 := by decide

/-- C1 amended.  Provided the user does not already hold the candidate role:
any role returned by `get_conflicting_role` is one of the user's roles and
distinct from the candidate, and if no user role lies in the candidate's
exclusivity group the result is `none`. -/
theorem get_conflicting_role_no_self (table : ExclusivityTable) (user_roles : List Nat)
    (cand : Nat) (hc : cand ∉ user_roles) :
    (∀ r, get_conflicting_role table user_roles cand = some r →
      r ∈ user_roles ∧ r ≠ cand) ∧
    (user_roles.filter (fun rid => (candidateGroupRoles table cand).contains rid) = [] →
      get_conflicting_role table user_roles cand = none) := by
  unfold get_conflicting_role candidateGroupRoles
  cases hfind : (table.find? (fun row => row.2 == cand)).map (fun row => row.1) with
  | none => simp
  | some g =>
    simp only
    cases hL : user_roles.filter
        (fun rid => ((table.filter (fun row => row.1 == g)).map (fun row => row.2)).contains rid) with
    | nil => simp [hL]
    | cons cid t =>
      have hcid : cid ∈ user_roles := by
        have : cid ∈ user_roles.filter
            (fun rid =>
              ((table.filter (fun row => row.1 == g)).map (fun row => row.2)).contains rid) := by
          rw [hL]
          exact List.mem_cons_self cid t
        exact (List.mem_filter.mp this).1
      refine ⟨?_, ?_⟩
      · intro r hr
        have : cid = r := by simpa using hr
        subst this
        exact ⟨hcid, fun h => hc (h ▸ hcid)⟩
      · intro h
        simp at h

/-- Witness for the amended C1: the user holds role 2 of the candidate's
group but not the candidate 1; role 2 is returned, never the candidate. -/
theorem get_conflicting_role_no_self_witness :
    (∀ r, get_conflicting_role [("g", 1), ("g", 2)] [2] 1 = some r →
      r ∈ [2] ∧ r ≠ 1) ∧
    (([2] : List Nat).filter
        (fun rid => (candidateGroupRoles [("g", 1), ("g", 2)] 1).contains rid) = [] →
      get_conflicting_role [("g", 1), ("g", 2)] [2] 1 = none) :=
  get_conflicting_role_no_self [("g", 1), ("g", 2)] [2] 1 (by decide)

/-- C9.  Granting the same (server, manager, managed) delegation twice has
the same effect as granting it once: starting from a store respecting the
primary key, exactly one such row exists afterwards and the second call
changes nothing. -/
theorem add_delegated_permission_idempotent (store : DelegationTable) (g m r : Nat)
    (hpk : List.count (g, m, r) store ≤ 1) :
    add_delegated_permission (add_delegated_permission store g m r) g m r =
      add_delegated_permission store g m r ∧
    List.count (g, m, r) (add_delegated_permission store g m r) = 1 := by
  by_cases hmem : (g, m, r) ∈ store
  · have h1 : add_delegated_permission store g m r = store := by
      simp [add_delegated_permission, hmem]
    refine ⟨by rw [h1, h1], ?_⟩
    rw [h1]
    have := List.count_pos_iff.mpr hmem
    omega
  · have h1 : add_delegated_permission store g m r = store ++ [(g, m, r)] := by
      simp [add_delegated_permission, hmem]
    have hmem2 : (g, m, r) ∈ store ++ [(g, m, r)] :=
      List.mem_append_right store (List.mem_cons_self _ [])
    refine ⟨by rw [h1]; simp [add_delegated_permission, hmem2], ?_⟩
    rw [h1, List.count_append]
    rw [List.count_eq_zero.mpr hmem]
    simp

/-- Witness for C9 from the empty store. -/
theorem add_delegated_permission_idempotent_witness :
    add_delegated_permission (add_delegated_permission [] 0 1 2) 0 1 2 =
      add_delegated_permission [] 0 1 2 ∧
    List.count (0, 1, 2) (add_delegated_permission [] 0 1 2) = 1 :=
  add_delegated_permission_idempotent [] 0 1 2 (by decide)

/-- C2 refutation.  The handlers in cogs/delegation.py and cogs/config.py
invoke `db.get_role_dependencies`, `db.get_full_hierarchy_for_role` and
`db.clean_stale_role_entries`, yet none of these names is among the
functions defined in src/database.py, so those handler paths raise
`AttributeError` instead of resolving to a defined database operation. -/
theorem cog_db_operations_undefined :
    ("get_role_dependencies" ∈ cogDbOperations ∧
      "get_role_dependencies" ∉ databaseModuleFunctions) ∧
    ("get_full_hierarchy_for_role" ∈ cogDbOperations ∧
      "get_full_hierarchy_for_role" ∉ databaseModuleFunctions) ∧
    ("clean_stale_role_entries" ∈ cogDbOperations ∧
      "clean_stale_role_entries" ∉ databaseModuleFunctions) := by
  decide

/-- C5 refutation at the failing input.  A removal-triggered read with a
history entry, a deleted rule (revert attempted unconditionally) and a
failing rename leaves the ledger entry in place — the delete sits inside the
`try` after the edit — whereas with a successful rename it is deleted. -/
theorem removal_failed_edit_skips_ledger_delete :
    (on_removed_role (some (some "Sam".toList)) none
        ⟨"sam".toList, "sam".toList, some "X".toList⟩ true).historyDeleted = false ∧
    (on_removed_role (some (some "Sam".toList)) none
        ⟨"sam".toList, "sam".toList, some "X".toList⟩ false).historyDeleted = true := by
  decide

/-- C3.  The visited-set dependency resolution is total (it is a Lean
function, so it terminates on every graph, cyclic ones included) and returns
exactly the roles reachable along "requires" edges from the input role,
excluding the input role itself; on the cyclic graph 0 requires 1, 1
requires 0, the result for input 0 is exactly [1]. -/
theorem get_role_dependencies_spec :
    (∀ (edges : DependencyEdges) (role x : Nat),
      x ∈ get_role_dependencies edges role ↔ Reaches edges role x ∧ x ≠ role) ∧
    get_role_dependencies [(0, 1), (1, 0)] 0 = [1] := by
  constructor
  · intro edges role x
    unfold get_role_dependencies
    rw [List.mem_filter, mem_dfsVisit_iff_reaches]
    simp
  · simp [get_role_dependencies, dfsVisit, succs]

/-- C4.  An authorized grant-role request for a member who already holds the
requested role and all of its transitive dependencies short-circuits with
the AlreadySatisfied outcome, leaving the member's role set and every store
unchanged. -/
theorem grant_role_already_satisfied (stores : GuildStores) (guild_id : Nat)
    (existingRoles : List Nat) (actorIsAdmin : Bool) (actorRoles : List Nat)
    (role_id : Nat) (memberRoles : List Nat) (addFails : Bool)
    (hexists : existingRoles.contains role_id = true)
    (hman : actorIsAdmin = false →
      (get_manageable_roles_for_user stores.delegated guild_id actorRoles).contains
        role_id = true)
    (hrole : role_id ∈ memberRoles)
    (hdeps : ∀ d ∈ get_role_dependencies stores.dependencies role_id, d ∈ memberRoles) :
    grant_role stores guild_id existingRoles actorIsAdmin actorRoles role_id
        memberRoles addFails =
      ⟨GrantOutcome.alreadySatisfied, memberRoles, stores⟩ := by
  have hexists' : role_id ∈ existingRoles := by simpa using hexists
  have hsat : (∀ a ∈ get_role_dependencies stores.dependencies role_id,
      a ∈ existingRoles → a ∈ memberRoles) ∧
      (role_id ∈ existingRoles → role_id ∈ memberRoles) :=
    ⟨fun a ha _ => hdeps a ha, fun _ => hrole⟩
  cases actorIsAdmin with
  | true =>
    simp only [grant_role, Bool.not_true, Bool.false_and, Bool.true_and]
    simp [hexists', hsat]
    intro x hx _ hxm
    exact absurd (hdeps x hx) hxm
  | false =>
    have hman' : role_id ∈ get_manageable_roles_for_user stores.delegated guild_id
        actorRoles := by simpa using hman rfl
    simp [grant_role, hexists', hman', hsat]
    intro x hx _ hxm
    exact absurd (hdeps x hx) hxm

/-- Witness for C4: an admin grant of role 5 to a member already holding it,
with an empty dependency graph. -/
theorem grant_role_already_satisfied_witness :
    grant_role ⟨[], [], []⟩ 0 [5] true [] 5 [5] false =
      ⟨GrantOutcome.alreadySatisfied, [5], ⟨[], [], []⟩⟩ :=
  grant_role_already_satisfied ⟨[], [], []⟩ 0 [5] true [] 5 [5] false (by decide)
    (fun h => Bool.noConfusion h) (by decide)
    (by simp [get_role_dependencies, dfsVisit, succs])

end RoleSync
